import Mathlib

/-!
# Verification of the catalog cross-matching utilities

This development embeds the catalog cross-matching core (`get_catalog`,
`cross_match_datasets` including its record-stream merge loop, and
`build_master_catalog` from `mmu/utils.py`) and proves the specified
properties about it.

Modelling conventions:

* Sky coordinates (`ra`, `dec`, in degrees) are rationals; the spatial
  partition key (`healpix`) is an integer, object identifiers are integers.
* The Spatial Matcher (`match_to_catalog_sky`) is delegated by the source to
  the external `astropy` library, so it is modelled from the spec: a
  brute-force globally-nearest-neighbour query returning, for every query
  point, the index of the nearest reference point and the angular separation,
  with `none` standing for the spec's "no match, separation = +infinity"
  answer on an empty reference set.  The angular separation itself is
  modelled by a nonnegative rational metric on coordinate pairs
  (squared Euclidean distance) which vanishes exactly on equal positions;
  the bookkeeping proved here does not depend on the precise spherical
  metric, only on these metric facts and on nearest-minimality.
* Pandas/astropy tables are lists of structures; boolean-mask selection,
  fancy indexing, `hstack`, `group_by` and `pd.concat` are embedded as the
  corresponding list operations (`group_by` sorts its rows by the key).
* Columns of the master catalogue that are keyed by a catalogue name
  (`name`, `name_idx`) are modelled positionally, by the index of the name in
  the `names` list; pandas requires column names to be distinct, so the two
  views agree.
-/

namespace MMU

/-- A sky position: (`ra`, `dec`) in degrees. -/
abbrev Pos := ℚ × ℚ

/-- Modelled from the spec: the Spatial Matcher's angular separation between
two sky positions.  The source delegates the metric to `astropy`
(external collaborator); it is modelled as squared Euclidean distance on
coordinate pairs, a nonnegative rational quantity that is zero exactly on
equal positions. -/
def sep (p q : Pos) : ℚ := (p.1 - q.1) ^ 2 + (p.2 - q.2) ^ 2

/-- Modelled from the spec: one nearest-neighbour query of the Spatial
Matcher.  Returns the index into the reference list of the globally nearest
point together with its separation, resolving ties towards the earliest
index; returns `none` when the reference set is empty (spec: no match,
separation = +infinity, callers must treat it as failing every threshold). -/
def nearest (q : Pos) : List Pos → Option (Nat × ℚ)
  | [] => none
  | r :: rs =>
    match nearest q rs with
    | none => some (0, sep q r)
    | some (i, s) => if sep q r ≤ s then some (0, sep q r) else some (i + 1, s)

/-- Modelled from the spec: `match_to_catalog_sky(query, reference)` — for
every query position, the nearest reference point and separation. -/
def match_to_catalog_sky (qs refs : List Pos) : List (Option (Nat × ℚ)) :=
  qs.map fun q => nearest q refs

theorem sep_nonneg (p q : Pos) : 0 ≤ sep p q := by
  have h1 : (0:ℚ) ≤ (p.1 - q.1) ^ 2 := sq_nonneg _
  have h2 : (0:ℚ) ≤ (p.2 - q.2) ^ 2 := sq_nonneg _
  simpa [sep] using add_nonneg h1 h2

theorem sep_self (p : Pos) : sep p p = 0 := by
  simp [sep]

theorem sep_eq_zero_iff {p q : Pos} : sep p q = 0 ↔ p = q := by
  constructor
  · intro h
    have h1 : (0:ℚ) ≤ (p.1 - q.1) ^ 2 := sq_nonneg _
    have h2 : (0:ℚ) ≤ (p.2 - q.2) ^ 2 := sq_nonneg _
    have hsum : (p.1 - q.1) ^ 2 + (p.2 - q.2) ^ 2 = 0 := h
    have e1 : (p.1 - q.1) ^ 2 = 0 := le_antisymm (by linarith) h1
    have e2 : (p.2 - q.2) ^ 2 = 0 := le_antisymm (by linarith) h2
    have f1 : p.1 = q.1 := by
      have := pow_eq_zero_iff (n := 2) (by norm_num) |>.mp e1
      linarith [sub_eq_zero.mp this]
    have f2 : p.2 = q.2 := by
      have := pow_eq_zero_iff (n := 2) (by norm_num) |>.mp e2
      linarith [sub_eq_zero.mp this]
    exact Prod.ext f1 f2
  · intro h
    subst h
    exact sep_self p

theorem nearest_eq_none_iff {q : Pos} {refs : List Pos} :
    nearest q refs = none ↔ refs = [] := by
  cases refs with
  | nil => simp [nearest]
  | cons r rs =>
    simp only [nearest]
    cases h : nearest q rs with
    | none => simp
    | some is => cases is with
      | mk i s => by_cases hle : sep q r ≤ s <;> simp [hle]

theorem nearest_idx_lt {q : Pos} {refs : List Pos} {i : Nat} {s : ℚ}
    (h : nearest q refs = some (i, s)) : i < refs.length := by
  induction refs generalizing i s with
  | nil => simp [nearest] at h
  | cons r rs ih =>
    rw [nearest] at h
    cases h' : nearest q rs with
    | none =>
      rw [h'] at h
      simp only [Option.some.injEq, Prod.mk.injEq] at h
      simp [← h.1]
    | some is =>
      rw [h'] at h
      obtain ⟨i', s'⟩ := is
      by_cases hle : sep q r ≤ s'
      · simp only [hle, if_true, Option.some.injEq, Prod.mk.injEq] at h
        simp [← h.1]
      · simp only [hle, if_false, Option.some.injEq, Prod.mk.injEq] at h
        have hlt := ih (i := i') (s := s') h'
        simp only [List.length_cons]
        omega

theorem nearest_isSome_of_ne_nil {q : Pos} {refs : List Pos} (h : refs ≠ []) :
    ∃ i s, nearest q refs = some (i, s) := by
  cases hn : nearest q refs with
  | none => exact absurd (nearest_eq_none_iff.mp hn) h
  | some is =>
    obtain ⟨i, s⟩ := is
    exact ⟨i, s, rfl⟩

theorem nearest_sep_eq {q : Pos} {refs : List Pos} {i : Nat} {s : ℚ}
    (h : nearest q refs = some (i, s)) : s = sep q (refs.getD i (0, 0)) := by
  induction refs generalizing i s with
  | nil => simp [nearest] at h
  | cons r rs ih =>
    rw [nearest] at h
    cases h' : nearest q rs with
    | none =>
      rw [h'] at h
      simp only [Option.some.injEq, Prod.mk.injEq] at h
      rw [← h.1, ← h.2]
      simp
    | some is =>
      rw [h'] at h
      obtain ⟨i', s'⟩ := is
      by_cases hle : sep q r ≤ s'
      · simp only [hle, if_true, Option.some.injEq, Prod.mk.injEq] at h
        rw [← h.1, ← h.2]
        simp
      · simp only [hle, if_false, Option.some.injEq, Prod.mk.injEq] at h
        rw [← h.1, ← h.2]
        simpa using ih h'

theorem nearest_min {q : Pos} {refs : List Pos} {i : Nat} {s : ℚ}
    (h : nearest q refs = some (i, s)) : ∀ r ∈ refs, s ≤ sep q r := by
  induction refs generalizing i s with
  | nil => simp [nearest] at h
  | cons r rs ih =>
    rw [nearest] at h
    intro x hx
    rcases List.mem_cons.mp hx with hx | hx
    · rw [hx]
      cases h' : nearest q rs with
      | none =>
        rw [h'] at h
        simp only [Option.some.injEq, Prod.mk.injEq] at h
        rw [← h.2]
      | some is =>
        rw [h'] at h
        obtain ⟨i', s'⟩ := is
        by_cases hle : sep q r ≤ s'
        · simp only [hle, if_true, Option.some.injEq, Prod.mk.injEq] at h
          rw [← h.2]
        · simp only [hle, if_false, Option.some.injEq, Prod.mk.injEq] at h
          rw [← h.2]
          linarith [not_le.mp hle]
    · cases h' : nearest q rs with
      | none =>
        rw [nearest_eq_none_iff.mp h'] at hx
        simp at hx
      | some is =>
        rw [h'] at h
        obtain ⟨i', s'⟩ := is
        have hmin := ih h' x hx
        by_cases hle : sep q r ≤ s'
        · simp only [hle, if_true, Option.some.injEq, Prod.mk.injEq] at h
          rw [← h.2]
          linarith
        · simp only [hle, if_false, Option.some.injEq, Prod.mk.injEq] at h
          rw [← h.2]
          exact hmin

theorem nearest_first {q : Pos} {refs : List Pos} {i : Nat} {s : ℚ}
    (h : nearest q refs = some (i, s)) :
    ∀ k, k < i → s < sep q (refs.getD k (0, 0)) := by
  induction refs generalizing i s with
  | nil => simp [nearest] at h
  | cons r rs ih =>
    rw [nearest] at h
    intro k hk
    cases h' : nearest q rs with
    | none =>
      rw [h'] at h
      simp only [Option.some.injEq, Prod.mk.injEq] at h
      omega
    | some is =>
      rw [h'] at h
      obtain ⟨i', s'⟩ := is
      by_cases hle : sep q r ≤ s'
      · simp only [hle, if_true, Option.some.injEq, Prod.mk.injEq] at h
        omega
      · simp only [hle, if_false, Option.some.injEq, Prod.mk.injEq] at h
        rw [← h.2]
        cases k with
        | zero => simpa using not_le.mp hle
        | succ k' =>
          have hk' : k' < i' := by omega
          simpa using ih h' k' hk'

/-- A row of the positional catalogue that `get_catalog` hands to
`cross_match_datasets` (default keys `object_id`, `ra`, `dec`, `healpix`). -/
structure Obj where
  object_id : Int
  ra : ℚ
  dec : ℚ
  healpix : Int
deriving DecidableEq

instance : Inhabited Obj :=
  ⟨⟨0, 0, 0, 0⟩⟩

/-- The `SkyCoord` column `sc` attached to a catalogue row. -/
def pos (o : Obj) : Pos := (o.ra, o.dec)

/-- Line 110: `idx, sep2d, _ = cat_left.sc.match_to_catalog_sky(cat_right.sc)`,
kept together with the `cat_left` row each answer belongs to. -/
def matchPairs (L R : List Obj) : List (Obj × Option (Nat × ℚ)) :=
  L.map fun l => (l, nearest (pos l) (R.map pos))

/-- Line 111: the threshold mask `sep2d < matching_radius` for one matcher
answer; the spec's +infinity answer (`none`) fails every threshold. -/
def maskOf (radius : ℚ) : Option (Nat × ℚ) → Bool
  | none => false
  | some (_, s) => decide (s < radius)

/-- The reference index carried by a matcher answer (only ever read under a
true `maskOf`, hence never on `none`). -/
def idxOf : Option (Nat × ℚ) → Nat
  | none => 0
  | some (i, _) => i

/-- Line 112: `cat_left = cat_left[mask]`. -/
def catLeftSel (L R : List Obj) (radius : ℚ) : List Obj :=
  (matchPairs L R).filterMap fun lm =>
    if maskOf radius lm.2 then some lm.1 else none

/-- Line 113: `cat_right = cat_right[idx[mask]]`. -/
def catRightSel (L R : List Obj) (radius : ℚ) : List Obj :=
  (matchPairs L R).filterMap fun lm =>
    if maskOf radius lm.2 then some (R.getD (idxOf lm.2) default) else none

/-- Lines 116-118: `hstack([cat_left, cat_right])` — the two equally-long
masked tables side by side. -/
def matchedPairs (L R : List Obj) (radius : ℚ) : List (Obj × Obj) :=
  (catLeftSel L R radius).zip (catRightSel L R radius)

/-- Lines 120-121: drop pairs whose healpix indices differ
(partition-boundary artifacts). -/
def boundaryFiltered (L R : List Obj) (radius : ℚ) : List (Obj × Obj) :=
  (matchedPairs L R radius).filter fun p => p.1.healpix == p.2.healpix

/-- A row of the final cross-matched catalogue: both source rows plus the
derived columns of lines 126-134. -/
structure MatchedRow where
  left : Obj
  right : Obj
  object_id : Int
  ra : ℚ
  dec : ℚ
  healpix : Int
deriving DecidableEq

instance : Inhabited MatchedRow :=
  ⟨⟨default, default, 0, 0, 0, 0⟩⟩

/-- Lines 126-134: derived `object_id` (left id), `ra`/`dec`
(`0.5*(left + right)`), `healpix` (the left — asserted shared — value). -/
def toMatchedRow (p : Obj × Obj) : MatchedRow :=
  { left := p.1
    right := p.2
    object_id := p.1.object_id
    ra := (p.1.ra + p.2.ra) / 2
    dec := (p.1.dec + p.2.dec) / 2
    healpix := p.1.healpix }

/-- The cross-matched catalogue together with the three counters emitted to
the observability sink (lines 115, 122, 123). -/
structure CrossMatchResult where
  rows : List MatchedRow
  initialMatches : Nat
  lostAtBorders : Nat
  finalSize : Nat
deriving DecidableEq

/-- Lines 110-135 of `cross_match_datasets` (the catalogue construction, as
returned under `return_catalog_only`): threshold the nearest-neighbour
matches, drop partition-boundary pairs, derive the merged columns and group
by `healpix` (astropy `group_by` sorts rows by the key). -/
def cross_match_datasets (L R : List Obj) (radius : ℚ) : CrossMatchResult :=
  let bf := boundaryFiltered L R radius
  { rows := (bf.map toMatchedRow).mergeSort fun a b => a.healpix ≤ b.healpix
    initialMatches := (catLeftSel L R radius).length
    lostAtBorders := (catLeftSel L R radius).length - bf.length
    finalSize := bf.length }

theorem zip_filterMap_if {α : Type} {β : Type} {γ : Type}
    (p : α → Bool) (f : α → β) (g : α → γ) (l : List α) :
    ((l.filterMap fun a => if p a then some (f a) else none).zip
        (l.filterMap fun a => if p a then some (g a) else none)) =
      l.filterMap fun a => if p a then some (f a, g a) else none := by
  induction l with
  | nil => rfl
  | cons a l ih =>
    by_cases hp : p a
    · simp [List.filterMap_cons, hp, ih]
    · simp [List.filterMap_cons, hp, ih]

/-- The hstacked table pairs each surviving left row with the right row its
matcher answer points at. -/
theorem matchedPairs_eq (L R : List Obj) (radius : ℚ) :
    matchedPairs L R radius =
      (matchPairs L R).filterMap fun lm =>
        if maskOf radius lm.2 then some (lm.1, R.getD (idxOf lm.2) default)
        else none := by
  unfold matchedPairs catLeftSel catRightSel
  exact zip_filterMap_if (fun lm => maskOf radius lm.2) (fun lm => lm.1)
    (fun lm => R.getD (idxOf lm.2) default) (matchPairs L R)

/-- A row of `extract_cat_params`: the (`ra`, `dec`, `healpix`) projection of
one catalogue that `build_master_catalog` works on. -/
structure CRow where
  ra : ℚ
  dec : ℚ
  healpix : Int
deriving DecidableEq

instance : Inhabited CRow :=
  ⟨⟨0, 0, 0⟩⟩

/-- The sky position of a projected catalogue row. -/
def cpos (c : CRow) : Pos := (c.ra, c.dec)

/-- A master-catalogue row: the position columns plus — positionally, for
each of the N catalogue names — the presence flag (`name` column) and the
index (`name_idx` column). -/
structure MRow where
  ra : ℚ
  dec : ℚ
  healpix : Int
  flags : List Bool
  idxs : List Int
deriving DecidableEq

instance : Inhabited MRow :=
  ⟨⟨0, 0, 0, [], []⟩⟩

/-- The sky position of a master-catalogue row. -/
def mpos (m : MRow) : Pos := (m.ra, m.dec)

/-- Lines 260-267 of `build_master_catalog`: match the current master rows
against the incoming catalogue and, on the rows that matched within the
radius, set the current name's flag to true and its index to the matched
index in the incoming catalogue. -/
def updateMaster (radius : ℚ) (t : Nat) (cat : List CRow) (master : List MRow) :
    List MRow :=
  master.map fun m =>
    match nearest (mpos m) (cat.map cpos) with
    | some (i, s) =>
      if s < radius then
        { m with flags := m.flags.set t true, idxs := m.idxs.set t i }
      else m
    | none => m

/-- Lines 269-276: the `mask` over the incoming catalogue — whether row j of
the incoming catalogue already matches some master row within the radius;
all-false while the master is still empty. -/
def matchedToMaster (radius : ℚ) (cat : List CRow) (master : List MRow) (j : Nat) :
    Bool :=
  if master.length = 0 then false
  else
    match nearest (cpos (cat.getD j default)) (master.map mpos) with
    | some (_, s) => decide (s < radius)
    | none => false

/-- The row indices of the incoming catalogue selected by `~mask` — the
genuinely new objects. -/
def unmatchedIdx (radius : ℚ) (cat : List CRow) (master : List MRow) : List Nat :=
  (List.range cat.length).filter fun j => ! matchedToMaster radius cat master j

/-- Lines 277-297: the master row appended for row j of the incoming
catalogue: position copied from the catalogue, flag true and index j for the
current name (position t out of N), flag false and index -1 for every other
name. -/
def mkNewRow (N t : Nat) (cat : List CRow) (j : Nat) : MRow :=
  { ra := (cat.getD j default).ra
    dec := (cat.getD j default).dec
    healpix := (cat.getD j default).healpix
    flags := (List.range N).map fun k => k = t
    idxs := (List.range N).map fun k => if k = t then (j : Int) else -1 }

/-- One iteration of the `for cat, name in zip(cats, names)` loop of
`build_master_catalog` (lines 255-300): update the flags/indices of the
matching master rows, then append one row per unmatched incoming object. -/
def foldStep (N : Nat) (radius : ℚ) (t : Nat) (cat : List CRow) (master : List MRow) :
    List MRow :=
  updateMaster radius t cat master ++
    (unmatchedIdx radius cat master).map (mkNewRow N t cat)

/-- `build_master_catalog(cats, names, matching_radius)`: fold the projected
catalogues, strictly in input order, into the initially empty master table.
Name-keyed columns are positional (see the module conventions); the final
dtype conversions of lines 302-308 are identities in this model. -/
def build_master_catalog (cats : List (List CRow)) (radius : ℚ) : List MRow :=
  cats.enum.foldl (fun master tc => foldStep cats.length radius tc.1 tc.2 master) []

/-- The master table after the first s iterations of the fold. -/
def masterAfter (cats : List (List CRow)) (radius : ℚ) (s : Nat) : List MRow :=
  (cats.enum.take s).foldl
    (fun master tc => foldStep cats.length radius tc.1 tc.2 master) []

/-- One positionally-paired step of the record-stream merge inside
`_generate_examples` (lines 158-183): `okL`/`okR` are the two id-containment
checks of lines 163-164 at this position, `recL`/`recR` the two records.
The merged record of lines 171-183 is a pure function of the record pair, so
an emission is represented by the pair itself. -/
structure ZipPair (ρ : Type) where
  okL : Bool
  okR : Bool
  recL : ρ
  recR : ρ
deriving DecidableEq

/-- Lines 158-183: walk the positionally-zipped pairs carrying the running
misalignment `counter`; a pair failing either check is skipped and counted,
a succeeding pair first reports a nonzero accumulated count (resetting it to
zero) and then emits.  Returns the emitted record pairs and the reported
misalignment counts. -/
def mergeLoop {ρ : Type} (counter : Nat) : List (ZipPair ρ) → List (ρ × ρ) × List Nat
  | [] => ([], [])
  | p :: rest =>
    if p.okL && p.okR then
      let out := mergeLoop 0 rest
      ((p.recL, p.recR) :: out.1, (if counter ≠ 0 then [counter] else []) ++ out.2)
    else
      mergeLoop (counter + 1) rest

/-- Spec-side description of the reported misalignment counts: the lengths of
the maximal runs of failed pairs that are interrupted by a later success (a
trailing run of failures is never reported). -/
def failRuns : List Bool → List Nat
  | [] => []
  | true :: rest => failRuns rest
  | false :: rest =>
    match h : rest.dropWhile (fun b => !b) with
    | [] => []
    | _ :: tail => ((rest.takeWhile fun b => !b).length + 1) :: failRuns tail
termination_by bs => bs.length
decreasing_by
  all_goals simp_wf
  all_goals
    have hlen : (rest.dropWhile (fun b => !b)).length ≤ rest.length :=
      (List.dropWhile_sublist _).length_le
  all_goals rw [h] at hlen
  all_goals simp at hlen
  all_goals omega

/-- The `num_proc = 1` branch of `get_catalog` (lines 64-68): a sequential
loop keeping each per-file catalogue that is not None, then `vstack`.
`f` abstracts `_file_to_catalog` (external file I/O; None on a file whose
read failed), a table being a list of rows. -/
def get_catalog_seq {σ ρ : Type} (f : σ → Option (List ρ)) (files : List σ) :
    List ρ :=
  (files.foldl
    (fun acc x =>
      match f x with
      | some c => acc ++ [c]
      | none => acc) []).flatten

/-- The `num_proc > 1` branch of `get_catalog` (lines 60-63): map
`_file_to_catalog` over the files (modelled from the spec: Python's
`Pool.map` is an external collaborator returning results in input order,
hence a plain map), drop the Nones, then `vstack`. -/
def get_catalog_par {σ ρ : Type} (f : σ → Option (List ρ)) (files : List σ) :
    List ρ :=
  ((((files.map f).filter fun c => c.isSome).filterMap id)).flatten

/-- `get_catalog(dset, keys, split, num_proc)` restricted to what the claim
compares: the per-split file list and the branch on `num_proc`. -/
def get_catalog {σ ρ : Type} (f : σ → Option (List ρ)) (files : List σ)
    (numProc : Nat) : List ρ :=
  if 1 < numProc then get_catalog_par f files else get_catalog_seq f files

theorem length_filterMap_if {α : Type} {β : Type} (p : α → Bool) (f : α → β)
    (l : List α) :
    (l.filterMap fun a => if p a then some (f a) else none).length = l.countP p := by
  induction l with
  | nil => rfl
  | cons a l ih =>
    by_cases hp : p a <;> simp [List.filterMap_cons, List.countP_cons, hp, ih]

theorem length_filter_add_length_filter_not {α : Type} (p : α → Bool) (l : List α) :
    (l.filter p).length + (l.filter fun a => ! p a).length = l.length := by
  induction l with
  | nil => rfl
  | cons a l ih =>
    by_cases hp : p a <;> simp [List.filter_cons, hp] <;> omega

theorem getD_map_of_lt {α : Type} {β : Type} [Inhabited α] [Inhabited β]
    (f : α → β) (l : List α) {i : Nat} (hi : i < l.length) :
    (l.map f).getD i default = f (l.getD i default) := by
  rw [List.getD_eq_getElem _ _ (by simpa using hi), List.getD_eq_getElem _ _ hi]
  simp

theorem getD_mem_of_lt {α : Type} [Inhabited α] (l : List α) {i : Nat}
    (hi : i < l.length) : l.getD i default ∈ l := by
  rw [List.getD_eq_getElem _ _ hi]
  exact List.getElem_mem hi

theorem filterMap_eq_range_filterMap {α : Type} {β : Type} [Inhabited α]
    (l : List α) (g : α → Option β) :
    l.filterMap g = (List.range l.length).filterMap fun i => g (l.getD i default) := by
  induction l with
  | nil => rfl
  | cons a l ih =>
    rw [List.length_cons, List.range_succ_eq_map, List.filterMap_cons,
      List.filterMap_cons, List.filterMap_map]
    have hcomp :
        ((fun i => g ((a :: l).getD i default)) ∘ Nat.succ) =
          fun i => g (l.getD i default) := by
      funext i
      simp [List.getD]
    rw [hcomp, ← ih]
    rfl

/-- After masking, the selected left and right tables have equal length (the
condition of the first fatal assertion, line 114). -/
theorem catLeftSel_length_eq (L R : List Obj) (radius : ℚ) :
    (catLeftSel L R radius).length = (catRightSel L R radius).length := by
  unfold catLeftSel catRightSel
  rw [length_filterMap_if, length_filterMap_if]

/-- C7: for every pair of input catalogs and every radius, the two fatal
assertions in `cross_match_datasets` never fire: after the threshold mask the
selected left and right row sets have equal length (line 114), and after the
partition-boundary filter every surviving row has equal left and right
healpix keys (line 133); both assertion error branches are unreachable. -/
theorem C7_assertions_never_fire (L R : List Obj) (radius : ℚ) :
    (catLeftSel L R radius).length = (catRightSel L R radius).length ∧
      ((boundaryFiltered L R radius).all fun p => p.1.healpix == p.2.healpix) = true := by
  refine ⟨catLeftSel_length_eq L R radius, ?_⟩
  rw [List.all_eq_true]
  intro p hp
  exact (List.mem_filter.mp hp).2

/-- C2: on an empty reference set the spec-modelled Spatial Matcher answers
"no match" (+infinity separation) for every query point, every such answer
fails the distance threshold, and both callers stay well defined: matching a
left catalogue against an empty right catalogue yields the empty
cross-matched catalogue with zero counters, and a `build_master_catalog`
fold step whose incoming catalogue is empty (the one case where the master
is matched against an empty reference) leaves the master unchanged. -/
theorem C2_empty_reference (qs : List Pos) (radius : ℚ) (L : List Obj)
    (N t : Nat) (master : List MRow) :
    match_to_catalog_sky qs [] = qs.map (fun _ => none) ∧
      maskOf radius none = false ∧
      cross_match_datasets L [] radius =
        { rows := [], initialMatches := 0, lostAtBorders := 0, finalSize := 0 } ∧
      foldStep N radius t [] master = master := by
  refine ⟨rfl, rfl, ?_, ?_⟩
  · have hsel : catLeftSel L [] radius = [] := by
      unfold catLeftSel matchPairs
      rw [List.filterMap_map]
      have : ∀ l : Obj,
          ((fun lm : Obj × Option (Nat × ℚ) =>
            if maskOf radius lm.2 then some lm.1 else none) ∘
            fun l => (l, nearest (pos l) (([] : List Obj).map pos))) l = none := by
        intro l
        simp [nearest, maskOf]
      simp only [Function.comp] at this ⊢
      simp [nearest, maskOf]
    have hmp : matchedPairs L [] radius = [] := by
      unfold matchedPairs
      rw [hsel]
      rfl
    unfold cross_match_datasets
    have hbf : boundaryFiltered L [] radius = [] := by
      unfold boundaryFiltered
      rw [hmp]
      rfl
    rw [hsel, hbf]
    simp
  · unfold foldStep updateMaster unmatchedIdx
    simp [nearest]

/-- Spec-side description of the Cross-Match Table rows (written from the
spec's words, to be compared with the pipeline): for each left row in order,
its nearest right neighbour, kept exactly when the separation is strictly
below the radius and the two partition keys agree. -/
def nnPairsSpec (L R : List Obj) (radius : ℚ) : List (Obj × Obj) :=
  (List.range L.length).filterMap fun i =>
    match nearest (pos (L.getD i default)) (R.map pos) with
    | some (j, s) =>
      if s < radius ∧ (L.getD i default).healpix = (R.getD j default).healpix then
        some (L.getD i default, R.getD j default)
      else none
    | none => none

/-- The boundary-filtered pair table is exactly the spec-side description. -/
theorem boundaryFiltered_eq_nnPairsSpec (L R : List Obj) (radius : ℚ) :
    boundaryFiltered L R radius = nnPairsSpec L R radius := by
  unfold boundaryFiltered
  rw [matchedPairs_eq, List.filter_filterMap]
  unfold matchPairs
  rw [List.filterMap_map]
  unfold nnPairsSpec
  rw [filterMap_eq_range_filterMap L]
  apply List.filterMap_congr
  intro i _
  simp only [Function.comp]
  cases hn : nearest (pos (L.getD i default)) (R.map pos) with
  | none => simp [maskOf]
  | some js =>
    obtain ⟨j, s⟩ := js
    by_cases hs : s < radius
    · by_cases hh : (L.getD i default).healpix = (R.getD j default).healpix
      · simp [maskOf, idxOf, hs, hh, Option.filter]
      · simp [maskOf, idxOf, hs, hh, Option.filter]
    · simp [maskOf, idxOf, hs]

/-- The masked left table and the hstacked pair table have the same length. -/
theorem matchedPairs_length (L R : List Obj) (radius : ℚ) :
    (matchedPairs L R radius).length = (catLeftSel L R radius).length := by
  rw [matchedPairs_eq]
  unfold catLeftSel
  rw [length_filterMap_if, length_filterMap_if]

/-- C4: the rows of the Cross-Match Table are exactly (up to the reordering
done by the healpix grouping) the nearest-neighbour pairs whose separation is
strictly below the radius and whose partition keys agree on both sides;
threshold-passing pairs with differing partition keys are discarded, and the
discarded count is what is reported to the observability sink. -/
theorem C4_cross_match_rows (L R : List Obj) (radius : ℚ) :
    ((cross_match_datasets L R radius).rows).Perm
        ((nnPairsSpec L R radius).map toMatchedRow) ∧
      (cross_match_datasets L R radius).lostAtBorders =
        ((matchedPairs L R radius).filter fun p => ! (p.1.healpix == p.2.healpix)).length := by
  constructor
  · have hperm :
        ((boundaryFiltered L R radius).map toMatchedRow).mergeSort
            (fun a b => a.healpix ≤ b.healpix) |>.Perm
          ((boundaryFiltered L R radius).map toMatchedRow) :=
      List.mergeSort_perm _ _
    unfold cross_match_datasets
    simpa [boundaryFiltered_eq_nnPairsSpec] using hperm
  · show (catLeftSel L R radius).length - (boundaryFiltered L R radius).length = _
    have hsum :=
      length_filter_add_length_filter_not
        (fun p : Obj × Obj => p.1.healpix == p.2.healpix) (matchedPairs L R radius)
    have hlen := matchedPairs_length L R radius
    unfold boundaryFiltered
    omega

/-- C5: every row of the Cross-Match Table carries derived columns computed
from its two source rows: `object_id` is the left id, `ra`/`dec` are the
arithmetic midpoints of the two sides, and `healpix` is the shared value of
the two (equal) partition keys. -/
theorem C5_derived_columns (L R : List Obj) (radius : ℚ) (r : MatchedRow)
    (hr : r ∈ (cross_match_datasets L R radius).rows) :
    r.object_id = r.left.object_id ∧
      r.ra = (r.left.ra + r.right.ra) / 2 ∧
      r.dec = (r.left.dec + r.right.dec) / 2 ∧
      r.healpix = r.left.healpix ∧ r.left.healpix = r.right.healpix := by
  unfold cross_match_datasets at hr
  simp only at hr
  rw [List.mem_mergeSort, List.mem_map] at hr
  obtain ⟨p, hp, hrp⟩ := hr
  have hhp : p.1.healpix = p.2.healpix := by
    have := (List.mem_filter.mp hp).2
    simpa using this
  subst hrp
  exact ⟨rfl, rfl, rfl, rfl, hhp⟩

/-- Witness for the derived-column property at a concrete one-row match. -/
theorem C5_derived_columns_witness :
    (toMatchedRow (⟨1, 0, 0, 5⟩, ⟨2, 0, 0, 5⟩)).object_id =
        (toMatchedRow (⟨1, 0, 0, 5⟩, ⟨2, 0, 0, 5⟩)).left.object_id ∧
      (toMatchedRow (⟨1, 0, 0, 5⟩, ⟨2, 0, 0, 5⟩)).ra =
        ((toMatchedRow (⟨1, 0, 0, 5⟩, ⟨2, 0, 0, 5⟩)).left.ra +
          (toMatchedRow (⟨1, 0, 0, 5⟩, ⟨2, 0, 0, 5⟩)).right.ra) / 2 ∧
      (toMatchedRow (⟨1, 0, 0, 5⟩, ⟨2, 0, 0, 5⟩)).dec =
        ((toMatchedRow (⟨1, 0, 0, 5⟩, ⟨2, 0, 0, 5⟩)).left.dec +
          (toMatchedRow (⟨1, 0, 0, 5⟩, ⟨2, 0, 0, 5⟩)).right.dec) / 2 ∧
      (toMatchedRow (⟨1, 0, 0, 5⟩, ⟨2, 0, 0, 5⟩)).healpix =
        (toMatchedRow (⟨1, 0, 0, 5⟩, ⟨2, 0, 0, 5⟩)).left.healpix ∧
      (toMatchedRow (⟨1, 0, 0, 5⟩, ⟨2, 0, 0, 5⟩)).left.healpix =
        (toMatchedRow (⟨1, 0, 0, 5⟩, ⟨2, 0, 0, 5⟩)).right.healpix :=
  C5_derived_columns [⟨1, 0, 0, 5⟩] [⟨2, 0, 0, 5⟩] 1
    (toMatchedRow (⟨1, 0, 0, 5⟩, ⟨2, 0, 0, 5⟩)) (by
      have hbf : boundaryFiltered [⟨1, 0, 0, 5⟩] [⟨2, 0, 0, 5⟩] 1 =
          [(⟨1, 0, 0, 5⟩, ⟨2, 0, 0, 5⟩)] := by
        norm_num [boundaryFiltered, matchedPairs, catLeftSel, catRightSel,
          matchPairs, nearest, sep, pos, maskOf, idxOf, -Prod.mk_zero_zero,
          List.filterMap_cons, List.filterMap_nil, List.zip_cons_cons,
          List.filter_cons, List.filter_nil]
      unfold cross_match_datasets
      rw [List.mem_mergeSort]
      rw [hbf]
      simp)

/-- Unfolded membership in the hstacked pair table: the left component is a
left-catalogue row whose matcher answer passed the threshold, and the right
component is the right-catalogue row the answer points at. -/
theorem mem_matchedPairs {L R : List Obj} {radius : ℚ} {p : Obj × Obj}
    (hp : p ∈ matchedPairs L R radius) :
    p.1 ∈ L ∧ ∃ i s, nearest (pos p.1) (R.map pos) = some (i, s) ∧ s < radius ∧
      i < R.length ∧ p.2 = R.getD i default := by
  rw [matchedPairs_eq, List.mem_filterMap] at hp
  obtain ⟨lm, hlm, hif⟩ := hp
  unfold matchPairs at hlm
  rw [List.mem_map] at hlm
  obtain ⟨l, hl, rfl⟩ := hlm
  cases hn : nearest (pos l) (R.map pos) with
  | none =>
    rw [hn] at hif
    simp [maskOf] at hif
  | some is =>
    obtain ⟨i, s⟩ := is
    rw [hn] at hif
    by_cases hs : s < radius
    · have hmask : maskOf radius (some (i, s)) = true := by
        simp [maskOf, hs]
      rw [hmask] at hif
      simp only [if_true, idxOf, Option.some.injEq] at hif
      rw [← hif]
      have hidx : i < R.length := by
        have := nearest_idx_lt hn
        simpa using this
      exact ⟨hl, i, s, hn, hs, hidx, rfl⟩
    · simp [maskOf, hs] at hif

/-- A query that occurs in the reference set is matched at separation zero,
to a reference entry carrying the query's own position. -/
theorem nearest_mem_self {q : Pos} {refs : List Pos} (hq : q ∈ refs) :
    ∃ i, nearest q refs = some (i, 0) ∧ refs.getD i (0, 0) = q := by
  have hne : refs ≠ [] := List.ne_nil_of_mem hq
  obtain ⟨i, s, hn⟩ := nearest_isSome_of_ne_nil (q := q) hne
  have hmin : s ≤ sep q q := nearest_min hn q hq
  rw [sep_self] at hmin
  have hsep := nearest_sep_eq hn
  have hnn : (0:ℚ) ≤ s := hsep ▸ sep_nonneg _ _
  have hs0 : s = 0 := le_antisymm hmin hnn
  subst hs0
  exact ⟨i, hn, (sep_eq_zero_iff.mp hsep.symm).symm⟩

/-- The default sky position is the origin. -/
theorem default_pos_eq : (default : Pos) = (0, 0) := rfl

/-- In a self-match every surviving pair joins two rows at the same sky
position. -/
theorem mem_matchedPairs_self_pos {L : List Obj} {radius : ℚ} {p : Obj × Obj}
    (hp : p ∈ matchedPairs L L radius) : pos p.1 = pos p.2 ∧ p.1 ∈ L ∧ p.2 ∈ L := by
  obtain ⟨hl, i, s, hn, _, hi, hp2⟩ := mem_matchedPairs hp
  have hql : pos p.1 ∈ L.map pos := List.mem_map_of_mem pos hl
  have hmin : s ≤ sep (pos p.1) (pos p.1) := nearest_min hn _ hql
  rw [sep_self] at hmin
  have hsep := nearest_sep_eq hn
  have hnn : (0:ℚ) ≤ s := hsep ▸ sep_nonneg _ _
  have hs0 : s = 0 := le_antisymm hmin hnn
  rw [hs0] at hsep
  have hmap : (L.map pos).getD i (0, 0) = pos (L.getD i default) := by
    rw [← default_pos_eq]
    exact getD_map_of_lt pos L hi
  rw [hmap] at hsep
  have hpos : pos p.1 = pos (L.getD i default) := sep_eq_zero_iff.mp hsep.symm
  refine ⟨?_, hl, ?_⟩
  · rw [hp2]
    exact hpos
  · rw [hp2]
    exact getD_mem_of_lt L hi

/-- In a self-match every matcher answer passes any positive threshold. -/
theorem matchPairs_self_mask {L : List Obj} {radius : ℚ} (hrad : 0 < radius) :
    ∀ lm ∈ matchPairs L L, maskOf radius lm.2 = true := by
  intro lm hlm
  unfold matchPairs at hlm
  rw [List.mem_map] at hlm
  obtain ⟨l, hl, rfl⟩ := hlm
  obtain ⟨i, hn, _⟩ := nearest_mem_self (List.mem_map_of_mem pos hl)
  simp [maskOf, hn, hrad]

/-- The boundary filter keeps every self-match pair when equal positions
imply equal partition keys. -/
theorem boundaryFiltered_self_eq {L : List Obj} {radius : ℚ}
    (hdup : ∀ o ∈ L, ∀ o' ∈ L, pos o = pos o' → o.healpix = o'.healpix) :
    boundaryFiltered L L radius = matchedPairs L L radius := by
  unfold boundaryFiltered
  rw [List.filter_eq_self]
  intro p hp
  obtain ⟨hpos, h1, h2⟩ := mem_matchedPairs_self_pos hp
  have := hdup p.1 h1 p.2 h2 hpos
  simpa using this

/-- The self-match pair table has one pair per catalogue row. -/
theorem matchedPairs_self_length {L : List Obj} {radius : ℚ} (hrad : 0 < radius) :
    (catLeftSel L L radius).length = L.length := by
  unfold catLeftSel
  rw [length_filterMap_if]
  have hall : ∀ lm ∈ matchPairs L L, maskOf radius lm.2 = true :=
    matchPairs_self_mask hrad
  rw [List.countP_eq_length.mpr fun lm hlm => hall lm hlm]
  unfold matchPairs
  rw [List.length_map]

/-- Counterexample input: two rows at the identical sky position that carry
different partition keys.  The second row's nearest neighbour in the
identical copy is the first row (earliest-index tie resolution), so that
pair is discarded at the partition-boundary filter and the loss counter is 1,
not 0. -/
theorem C6_self_match_counterexample :
    (cross_match_datasets [⟨0, 0, 0, 0⟩, ⟨1, 0, 0, 1⟩]
        [⟨0, 0, 0, 0⟩, ⟨1, 0, 0, 1⟩] 1).lostAtBorders ≠ 0 := by
  norm_num [cross_match_datasets, boundaryFiltered, matchedPairs, catLeftSel,
    catRightSel, matchPairs, nearest, sep, pos, maskOf, idxOf,
    -Prod.mk_zero_zero, List.filterMap_cons, List.filterMap_nil,
    List.zip_cons_cons, List.filter_cons, List.filter_nil]

/-- C6 (amended): cross-matching a catalogue with an identical copy of
itself, with a strictly positive radius, yields one match per row, zero
partition-boundary losses and derived coordinates equal to the original
ones — provided any two rows at the identical sky position carry the same
partition key (without that proviso the boundary filter can discard a
tie-resolved pair, see the counterexample). -/
theorem C6_self_match (L : List Obj) (radius : ℚ) (hrad : 0 < radius)
    (hdup : ∀ o ∈ L, ∀ o' ∈ L, pos o = pos o' → o.healpix = o'.healpix) :
    (cross_match_datasets L L radius).initialMatches = L.length ∧
      (cross_match_datasets L L radius).lostAtBorders = 0 ∧
      (cross_match_datasets L L radius).finalSize = L.length ∧
      ∀ r ∈ (cross_match_datasets L L radius).rows,
        r.ra = r.left.ra ∧ r.dec = r.left.dec := by
  have hsel : (catLeftSel L L radius).length = L.length :=
    matchedPairs_self_length hrad
  have hbf : boundaryFiltered L L radius = matchedPairs L L radius :=
    boundaryFiltered_self_eq hdup
  have hbflen : (boundaryFiltered L L radius).length = L.length := by
    rw [hbf, matchedPairs_length]
    exact hsel
  refine ⟨hsel, ?_, hbflen, ?_⟩
  · show (catLeftSel L L radius).length - (boundaryFiltered L L radius).length = 0
    omega
  · intro r hr
    unfold cross_match_datasets at hr
    simp only at hr
    rw [List.mem_mergeSort, List.mem_map] at hr
    obtain ⟨p, hp, hrp⟩ := hr
    rw [hbf] at hp
    obtain ⟨hpos, _, _⟩ := mem_matchedPairs_self_pos hp
    have hra : p.1.ra = p.2.ra := congrArg Prod.fst hpos
    have hdec : p.1.dec = p.2.dec := congrArg Prod.snd hpos
    subst hrp
    constructor
    · show (p.1.ra + p.2.ra) / 2 = p.1.ra
      rw [← hra]
      ring
    · show (p.1.dec + p.2.dec) / 2 = p.1.dec
      rw [← hdec]
      ring

/-- Witness for the amended self-match property at a concrete one-row
catalogue. -/
theorem C6_self_match_witness :
    (cross_match_datasets [⟨1, 2, 3, 7⟩] [⟨1, 2, 3, 7⟩] 1).initialMatches = 1 ∧
      (cross_match_datasets [⟨1, 2, 3, 7⟩] [⟨1, 2, 3, 7⟩] 1).lostAtBorders = 0 ∧
      (cross_match_datasets [⟨1, 2, 3, 7⟩] [⟨1, 2, 3, 7⟩] 1).finalSize = 1 ∧
      ((toMatchedRow (⟨1, 2, 3, 7⟩, ⟨1, 2, 3, 7⟩)).ra =
          (toMatchedRow (⟨1, 2, 3, 7⟩, ⟨1, 2, 3, 7⟩)).left.ra ∧
        (toMatchedRow (⟨1, 2, 3, 7⟩, ⟨1, 2, 3, 7⟩)).dec =
          (toMatchedRow (⟨1, 2, 3, 7⟩, ⟨1, 2, 3, 7⟩)).left.dec) := by
  have h := C6_self_match [⟨1, 2, 3, 7⟩] 1 (by norm_num) (by
    intro o ho o' ho' _
    rw [List.mem_singleton] at ho ho'
    rw [ho, ho'])
  refine ⟨h.1, h.2.1, h.2.2.1, h.2.2.2 _ ?_⟩
  unfold cross_match_datasets
  rw [List.mem_mergeSort]
  have hbf : boundaryFiltered [⟨1, 2, 3, 7⟩] [⟨1, 2, 3, 7⟩] 1 =
      [(⟨1, 2, 3, 7⟩, ⟨1, 2, 3, 7⟩)] := by
    norm_num [boundaryFiltered, matchedPairs, catLeftSel, catRightSel,
      matchPairs, nearest, sep, pos, maskOf, idxOf, -Prod.mk_zero_zero,
      List.filterMap_cons, List.filterMap_nil, List.zip_cons_cons,
      List.filter_cons, List.filter_nil]
  rw [hbf]
  simp

theorem masterAfter_zero (cats : List (List CRow)) (radius : ℚ) :
    masterAfter cats radius 0 = [] := rfl

theorem masterAfter_succ (cats : List (List CRow)) (radius : ℚ) {s : Nat}
    (hs : s < cats.length) :
    masterAfter cats radius (s + 1) =
      foldStep cats.length radius s (cats.getD s []) (masterAfter cats radius s) := by
  unfold masterAfter
  rw [List.take_succ]
  have henum : cats.enum[s]? = some (s, cats.getD s []) := by
    rw [List.getElem?_enum, List.getElem?_eq_getElem hs,
      List.getD_eq_getElem _ _ hs]
    rfl
  rw [henum]
  rw [List.foldl_append]
  rfl

theorem masterAfter_full (cats : List (List CRow)) (radius : ℚ) :
    masterAfter cats radius cats.length = build_master_catalog cats radius := by
  unfold masterAfter build_master_catalog
  rw [List.take_of_length_le (le_of_eq List.enum_length)]

/-- Folding any catalogue into the empty master appends one fresh row per
catalogue row, in order. -/
theorem foldStep_empty_master (N : Nat) (radius : ℚ) (t : Nat) (cat : List CRow) :
    foldStep N radius t cat [] = (List.range cat.length).map (mkNewRow N t cat) := by
  unfold foldStep updateMaster unmatchedIdx matchedToMaster
  simp

theorem getD_map_range {β : Type} (f : Nat → β) {n j : Nat}
    (hj : j < n) (d : β) : ((List.range n).map f).getD j d = f j := by
  rw [List.getD_eq_getElem _ _ (by simpa using hj)]
  simp

/-- C1: folding the first catalogue of the list into the initially empty
master catalogue (the first iteration of `build_master_catalog`) yields one
master row per catalogue row, in order: the position columns are copied, the
first catalogue's presence flag is true with row index j on row j, and every
other catalogue's presence flag is false with row index -1. -/
theorem C1_first_fold (cats : List (List CRow)) (radius : ℚ) (j k : Nat)
    (hne : cats ≠ []) (hj : j < (cats.headD []).length) (hk : k < cats.length) :
    (masterAfter cats radius 1).length = (cats.headD []).length ∧
      ((masterAfter cats radius 1).getD j default).ra =
        ((cats.headD []).getD j default).ra ∧
      ((masterAfter cats radius 1).getD j default).dec =
        ((cats.headD []).getD j default).dec ∧
      ((masterAfter cats radius 1).getD j default).healpix =
        ((cats.headD []).getD j default).healpix ∧
      ((masterAfter cats radius 1).getD j default).flags.getD 0 false = true ∧
      ((masterAfter cats radius 1).getD j default).idxs.getD 0 0 = (j : Int) ∧
      (0 < k →
        ((masterAfter cats radius 1).getD j default).flags.getD k false = false ∧
        ((masterAfter cats radius 1).getD j default).idxs.getD k 0 = -1) := by
  obtain ⟨c, rest, rfl⟩ := List.exists_cons_of_ne_nil hne
  have hhead : (c :: rest).headD [] = c := rfl
  rw [hhead] at hj ⊢
  have h1 : masterAfter (c :: rest) radius 1 =
      (List.range c.length).map (mkNewRow (c :: rest).length 0 c) := by
    rw [masterAfter_succ (c :: rest) radius (by simp), masterAfter_zero]
    exact foldStep_empty_master _ _ _ _
  have hrow : (masterAfter (c :: rest) radius 1).getD j default =
      mkNewRow (c :: rest).length 0 c j := by
    rw [h1]
    exact getD_map_range _ hj default
  have hN0 : 0 < (c :: rest).length := by simp
  refine ⟨by rw [h1]; simp, ?_, ?_, ?_, ?_, ?_, ?_⟩
  · rw [hrow]
    rfl
  · rw [hrow]
    rfl
  · rw [hrow]
    rfl
  · rw [hrow]
    show ((List.range (c :: rest).length).map fun m => decide (m = 0)).getD 0 false = true
    rw [getD_map_range _ hN0]
    simp
  · rw [hrow]
    show ((List.range (c :: rest).length).map fun m =>
      if m = 0 then (j : Int) else -1).getD 0 0 = (j : Int)
    rw [getD_map_range _ hN0]
    simp
  · intro hk0
    constructor
    · rw [hrow]
      show ((List.range (c :: rest).length).map fun m => decide (m = 0)).getD k false = false
      rw [getD_map_range _ hk]
      simp
      omega
    · rw [hrow]
      show ((List.range (c :: rest).length).map fun m =>
        if m = 0 then (j : Int) else -1).getD k 0 = -1
      rw [getD_map_range _ hk]
      rw [if_neg (by omega)]

/-- Witness for the first-fold property on a concrete two-catalogue input. -/
theorem C1_first_fold_witness :
    (masterAfter [[⟨1, 2, 3⟩], [⟨4, 5, 6⟩]] 1 1).length =
        (([[⟨1, 2, 3⟩], [⟨4, 5, 6⟩]] : List (List CRow)).headD []).length ∧
      ((masterAfter [[⟨1, 2, 3⟩], [⟨4, 5, 6⟩]] 1 1).getD 0 default).ra =
        ((([[⟨1, 2, 3⟩], [⟨4, 5, 6⟩]] : List (List CRow)).headD []).getD 0 default).ra ∧
      ((masterAfter [[⟨1, 2, 3⟩], [⟨4, 5, 6⟩]] 1 1).getD 0 default).dec =
        ((([[⟨1, 2, 3⟩], [⟨4, 5, 6⟩]] : List (List CRow)).headD []).getD 0 default).dec ∧
      ((masterAfter [[⟨1, 2, 3⟩], [⟨4, 5, 6⟩]] 1 1).getD 0 default).healpix =
        ((([[⟨1, 2, 3⟩], [⟨4, 5, 6⟩]] : List (List CRow)).headD []).getD 0 default).healpix ∧
      ((masterAfter [[⟨1, 2, 3⟩], [⟨4, 5, 6⟩]] 1 1).getD 0 default).flags.getD 0 false = true ∧
      ((masterAfter [[⟨1, 2, 3⟩], [⟨4, 5, 6⟩]] 1 1).getD 0 default).idxs.getD 0 0 = (0 : Int) ∧
      ((masterAfter [[⟨1, 2, 3⟩], [⟨4, 5, 6⟩]] 1 1).getD 0 default).flags.getD 1 false = false ∧
      ((masterAfter [[⟨1, 2, 3⟩], [⟨4, 5, 6⟩]] 1 1).getD 0 default).idxs.getD 1 0 = -1 := by
  have h := C1_first_fold [[⟨1, 2, 3⟩], [⟨4, 5, 6⟩]] 1 0 1
    (by simp) (by simp) (by simp)
  obtain ⟨h1, h2, h3, h4, h5, h6, h7⟩ := h
  obtain ⟨h8, h9⟩ := h7 (by simp)
  exact ⟨h1, h2, h3, h4, h5, by simpa using h6, h8, h9⟩

theorem getD_set_self {α : Type} (l : List α) {t : Nat} (ht : t < l.length)
    (a d : α) : (l.set t a).getD t d = a := by
  rw [List.getD_eq_getElem _ _ (by simpa using ht)]
  simp

/-- The default projected-row position is the origin. -/
theorem cpos_default_eq : cpos default = ((0, 0) : Pos) := rfl

/-- Getting a position out of the mapped position list. -/
theorem getD_map_cpos (cat : List CRow) {k : Nat} (hk : k < cat.length) :
    (cat.map cpos).getD k (0, 0) = cpos (cat.getD k default) :=
  getD_map_of_lt cpos cat hk

/-- A master row with exactly the position of row j of the incoming
catalogue — and no earlier catalogue row at that position — is matched by the
spatial matcher to index j at separation zero. -/
theorem nearest_exact_idx {master : List MRow} {cat : List CRow} {m j : Nat}
    (hm : m < master.length) (hj : j < cat.length)
    (hpos : cpos (cat.getD j default) = mpos (master.getD m default))
    (hfirst : ∀ k, k < j → cpos (cat.getD k default) ≠ mpos (master.getD m default)) :
    nearest (mpos (master.getD m default)) (cat.map cpos) = some (j, 0) := by
  set q := mpos (master.getD m default) with hq
  have hlen : (cat.map cpos).length = cat.length := List.length_map _ _
  have hje : (cat.map cpos).getD j (0, 0) = q := by
    rw [getD_map_cpos cat hj, hpos]
  have hne : (cat.map cpos) ≠ [] := by
    intro hnil
    rw [hnil] at hlen
    simp at hlen
    omega
  obtain ⟨i, s, hn⟩ := nearest_isSome_of_ne_nil (q := q) hne
  have hmemj : (cat.map cpos).getD j (0, 0) ∈ cat.map cpos := by
    have : ((0, 0) : Pos) = default := rfl
    rw [this]
    exact getD_mem_of_lt _ (by omega)
  have hs_le : s ≤ 0 := by
    have := nearest_min hn _ hmemj
    rw [hje, sep_self] at this
    exact this
  have hsep := nearest_sep_eq hn
  have hs_ge : (0:ℚ) ≤ s := hsep ▸ sep_nonneg _ _
  have hs0 : s = 0 := le_antisymm hs_le hs_ge
  subst hs0
  have hij : i = j := by
    rcases Nat.lt_trichotomy i j with hlt | heq | hgt
    · exfalso
      have hzero : sep q ((cat.map cpos).getD i (0, 0)) = 0 := hsep.symm
      have hqi : q = (cat.map cpos).getD i (0, 0) := sep_eq_zero_iff.mp hzero
      have hi : i < cat.length := by
        have := nearest_idx_lt hn
        omega
      rw [getD_map_cpos cat hi] at hqi
      exact hfirst i hlt hqi.symm
    · exact heq
    · exfalso
      have := nearest_first hn j hgt
      rw [hje, sep_self] at this
      exact absurd this (lt_irrefl 0)
  rw [hij] at hn
  exact hn

/-- C3: folding a catalogue that contains an object at exactly the position
of an existing master row (the first such catalogue row, positive radius)
appends no new master row for that object — only the unmatched rows are
appended — and instead updates the existing master row: the current
catalogue's presence flag becomes true and its row index becomes the
object's index in the catalogue. -/
theorem C3_exact_position_match (master : List MRow) (cat : List CRow)
    (N t m j : Nat) (radius : ℚ)
    (hrad : 0 < radius) (hm : m < master.length) (hj : j < cat.length)
    (hpos : cpos (cat.getD j default) = mpos (master.getD m default))
    (hfirst : ∀ k, k < j → cpos (cat.getD k default) ≠ mpos (master.getD m default))
    (ht : t < N)
    (hflen : (master.getD m default).flags.length = N)
    (hilen : (master.getD m default).idxs.length = N) :
    j ∉ unmatchedIdx radius cat master ∧
      (foldStep N radius t cat master).length =
        master.length + (unmatchedIdx radius cat master).length ∧
      ((foldStep N radius t cat master).getD m default).flags.getD t false = true ∧
      ((foldStep N radius t cat master).getD m default).idxs.getD t 0 = (j : Int) := by
  have hnear := nearest_exact_idx hm hj hpos hfirst
  have hupd : (updateMaster radius t cat master).getD m default =
      { master.getD m default with
          flags := (master.getD m default).flags.set t true,
          idxs := (master.getD m default).idxs.set t (j : Int) } := by
    unfold updateMaster
    rw [getD_map_of_lt _ master hm, hnear]
    dsimp only
    rw [if_pos hrad]
  have hulen : (updateMaster radius t cat master).length = master.length := by
    unfold updateMaster
    exact List.length_map _ _
  have hgetfold : (foldStep N radius t cat master).getD m default =
      (updateMaster radius t cat master).getD m default := by
    unfold foldStep
    rw [List.getD_eq_getElem?_getD, List.getElem?_append_left (by omega),
      ← List.getD_eq_getElem?_getD]
  refine ⟨?_, ?_, ?_, ?_⟩
  · intro hmem
    unfold unmatchedIdx at hmem
    have hmatched : matchedToMaster radius cat master j = true := by
      unfold matchedToMaster
      rw [if_neg (by omega)]
      obtain ⟨i', hn', _⟩ :=
        @nearest_mem_self (cpos (cat.getD j default)) (master.map mpos)
          (by
            rw [hpos]
            exact List.mem_map_of_mem mpos (getD_mem_of_lt master hm))
      rw [hn']
      simpa using hrad
    rw [List.mem_filter] at hmem
    rw [hmatched] at hmem
    simp at hmem
  · unfold foldStep
    rw [List.length_append, List.length_map, hulen]
  · rw [hgetfold, hupd]
    show ((master.getD m default).flags.set t true).getD t false = true
    exact getD_set_self _ (by omega) _ _
  · rw [hgetfold, hupd]
    show ((master.getD m default).idxs.set t (j : Int)).getD t 0 = (j : Int)
    exact getD_set_self _ (by omega) _ _

/-- Witness for the exact-position fold behaviour on a concrete one-row
master and a one-row incoming catalogue at the same position. -/
theorem C3_exact_position_match_witness :
    0 ∉ unmatchedIdx 1 [⟨2, 3, 9⟩] [⟨2, 3, 9, [true, false], [0, -1]⟩] ∧
      (foldStep 2 1 1 [⟨2, 3, 9⟩] [⟨2, 3, 9, [true, false], [0, -1]⟩]).length =
        ([⟨2, 3, 9, [true, false], [0, -1]⟩] : List MRow).length +
          (unmatchedIdx 1 [⟨2, 3, 9⟩] [⟨2, 3, 9, [true, false], [0, -1]⟩]).length ∧
      ((foldStep 2 1 1 [⟨2, 3, 9⟩]
          [⟨2, 3, 9, [true, false], [0, -1]⟩]).getD 0 default).flags.getD 1 false = true ∧
      ((foldStep 2 1 1 [⟨2, 3, 9⟩]
          [⟨2, 3, 9, [true, false], [0, -1]⟩]).getD 0 default).idxs.getD 1 0 = ((0 : Nat) : Int) :=
  C3_exact_position_match [⟨2, 3, 9, [true, false], [0, -1]⟩] [⟨2, 3, 9⟩] 2 1 0 0 1
    (by norm_num) (by norm_num) (by norm_num) rfl
    (by
      intro k hk
      exact absurd hk (Nat.not_lt_zero k))
    (by norm_num) rfl rfl

theorem getD_set_ne {α : Type} (l : List α) {t k : Nat} (htk : t ≠ k)
    (a d : α) : (l.set t a).getD k d = l.getD k d := by
  rw [List.getD_eq_getElem?_getD, List.getElem?_set_ne htk,
    ← List.getD_eq_getElem?_getD]

theorem masterAfter_stable (cats : List (List CRow)) (radius : ℚ) {s : Nat}
    (hs : cats.length ≤ s) :
    masterAfter cats radius s = build_master_catalog cats radius := by
  unfold masterAfter build_master_catalog
  rw [List.take_of_length_le (by rw [List.enum_length]; omega)]

/-- The per-row bookkeeping invariant of the master catalogue: per catalogue
position, the index is the -1 sentinel exactly when the presence flag is
false, and a true flag comes with a valid 0-based index into that
catalogue's projection. -/
def rowInvariant (cats : List (List CRow)) (row : MRow) : Prop :=
  row.flags.length = cats.length ∧ row.idxs.length = cats.length ∧
    ∀ k, k < cats.length →
      ((row.idxs.getD k 0 = -1 ↔ row.flags.getD k false = false) ∧
        (row.flags.getD k false = true →
          0 ≤ row.idxs.getD k 0 ∧
            row.idxs.getD k 0 < ((cats.getD k []).length : Int)))

theorem foldStep_preserves_invariant {cats : List (List CRow)} {radius : ℚ}
    {t : Nat} (ht : t < cats.length) {master : List MRow}
    (hmaster : ∀ row ∈ master, rowInvariant cats row) :
    ∀ row ∈ foldStep cats.length radius t (cats.getD t []) master,
      rowInvariant cats row := by
  intro row hrow
  unfold foldStep at hrow
  rw [List.mem_append] at hrow
  rcases hrow with hrow | hrow
  · unfold updateMaster at hrow
    rw [List.mem_map] at hrow
    obtain ⟨mr, hmr, hrow⟩ := hrow
    obtain ⟨hf, hi, hinv⟩ := hmaster mr hmr
    cases hn : nearest (mpos mr) ((cats.getD t []).map cpos) with
    | none =>
      rw [hn] at hrow
      rw [← hrow]
      exact ⟨hf, hi, hinv⟩
    | some is =>
      obtain ⟨i, s⟩ := is
      rw [hn] at hrow
      dsimp only at hrow
      by_cases hs : s < radius
      · rw [if_pos hs] at hrow
        have hilt : i < (cats.getD t []).length := by
          have := nearest_idx_lt hn
          simpa using this
        rw [← hrow]
        refine ⟨by simpa using hf, by simpa using hi, ?_⟩
        intro k hk
        by_cases hkt : k = t
        · subst hkt
          have hfg : (mr.flags.set k true).getD k false = true :=
            getD_set_self _ (by omega) _ _
          have hig : (mr.idxs.set k (i : Int)).getD k 0 = (i : Int) :=
            getD_set_self _ (by omega) _ _
          refine ⟨?_, ?_⟩
          · rw [hfg, hig]
            constructor
            · intro habs
              exfalso
              omega
            · intro habs
              simp at habs
          · intro _
            rw [hig]
            constructor
            · omega
            · exact_mod_cast hilt
        · have hfg : (mr.flags.set t true).getD k false = mr.flags.getD k false :=
            getD_set_ne _ (fun h => hkt h.symm) _ _
          have hig : (mr.idxs.set t (i : Int)).getD k 0 = mr.idxs.getD k 0 :=
            getD_set_ne _ (fun h => hkt h.symm) _ _
          rw [hfg, hig]
          exact hinv k hk
      · rw [if_neg hs] at hrow
        rw [← hrow]
        exact ⟨hf, hi, hinv⟩
  · rw [List.mem_map] at hrow
    obtain ⟨j, hj, hrow⟩ := hrow
    have hjlt : j < (cats.getD t []).length := by
      unfold unmatchedIdx at hj
      have := (List.mem_filter.mp hj).1
      simpa using this
    rw [← hrow]
    unfold mkNewRow
    refine ⟨by simp, by simp, ?_⟩
    intro k hk
    have hfg : (((List.range cats.length).map fun m => decide (m = t)).getD k false) =
        decide (k = t) := getD_map_range _ hk false
    have hig : (((List.range cats.length).map fun m =>
        if m = t then (j : Int) else -1).getD k 0) =
        if k = t then (j : Int) else -1 := getD_map_range _ hk 0
    dsimp only
    rw [hfg, hig]
    by_cases hkt : k = t
    · subst hkt
      rw [if_pos rfl]
      refine ⟨?_, ?_⟩
      · constructor
        · intro habs
          exfalso
          omega
        · intro habs
          simp at habs
      · intro _
        constructor
        · omega
        · exact_mod_cast hjlt
    · rw [if_neg hkt]
      refine ⟨by simp [hkt], ?_⟩
      intro habs
      simp [hkt] at habs

theorem masterAfter_invariant (cats : List (List CRow)) (radius : ℚ) (s : Nat) :
    ∀ row ∈ masterAfter cats radius s, rowInvariant cats row := by
  induction s with
  | zero =>
    intro row hrow
    rw [masterAfter_zero] at hrow
    simp at hrow
  | succ s ih =>
    by_cases hs : s < cats.length
    · rw [masterAfter_succ cats radius hs]
      exact foldStep_preserves_invariant hs ih
    · rw [masterAfter_stable cats radius (by omega),
        ← masterAfter_stable cats radius (le_of_not_lt hs)]
      exact ih

/-- C9: after every fold step of `build_master_catalog` (and hence in the
final master catalogue) every row satisfies, for every catalogue position:
the row index is the -1 sentinel exactly when the presence flag is false,
and a true presence flag comes with a valid 0-based row index into that
catalogue's projection. -/
theorem C9_master_invariant (cats : List (List CRow)) (radius : ℚ) (s : Nat)
    (row : MRow) (k : Nat) (hrow : row ∈ masterAfter cats radius s)
    (hk : k < cats.length) :
    row.flags.length = cats.length ∧ row.idxs.length = cats.length ∧
      (row.idxs.getD k 0 = -1 ↔ row.flags.getD k false = false) ∧
      (row.flags.getD k false = true →
        0 ≤ row.idxs.getD k 0 ∧
          row.idxs.getD k 0 < ((cats.getD k []).length : Int)) := by
  obtain ⟨h1, h2, h3⟩ := masterAfter_invariant cats radius s row hrow
  exact ⟨h1, h2, (h3 k hk).1, (h3 k hk).2⟩

/-- Witness for the bookkeeping invariant on the master row produced by
folding a concrete one-row catalogue. -/
theorem C9_master_invariant_witness :
    (⟨0, 0, 3, [true], [0]⟩ : MRow).flags.length =
        ([[⟨0, 0, 3⟩]] : List (List CRow)).length ∧
      (⟨0, 0, 3, [true], [0]⟩ : MRow).idxs.length =
        ([[⟨0, 0, 3⟩]] : List (List CRow)).length ∧
      ((⟨0, 0, 3, [true], [0]⟩ : MRow).idxs.getD 0 0 = -1 ↔
        (⟨0, 0, 3, [true], [0]⟩ : MRow).flags.getD 0 false = false) ∧
      (0 ≤ (⟨0, 0, 3, [true], [0]⟩ : MRow).idxs.getD 0 0 ∧
        (⟨0, 0, 3, [true], [0]⟩ : MRow).idxs.getD 0 0 <
          ((([[⟨0, 0, 3⟩]] : List (List CRow)).getD 0 []).length : Int)) := by
  have h := C9_master_invariant [[⟨0, 0, 3⟩]] 1 1 ⟨0, 0, 3, [true], [0]⟩ 0
    (by
      rw [show masterAfter [[⟨0, 0, 3⟩]] 1 1 = [⟨0, 0, 3, [true], [0]⟩] from rfl]
      exact List.mem_singleton.mpr rfl)
    (by norm_num)
  exact ⟨h.1, h.2.1, h.2.2.1, h.2.2.2 (by decide)⟩

theorem mergeLoop_fst {ρ : Type} (ps : List (ZipPair ρ)) :
    ∀ c, (mergeLoop c ps).1 =
      (ps.filter fun q => q.okL && q.okR).map fun q => (q.recL, q.recR) := by
  induction ps with
  | nil =>
    intro c
    rfl
  | cons p rest ih =>
    intro c
    rw [mergeLoop]
    by_cases hok : p.okL && p.okR
    · rw [if_pos hok, List.filter_cons, if_pos hok]
      simp only [List.map_cons]
      rw [← ih 0]
    · rw [if_neg hok, List.filter_cons, if_neg hok]
      exact ih (c + 1)

theorem dropWhile_replicate_false_append (c : Nat) (l : List Bool) :
    (List.replicate c false ++ true :: l).dropWhile (fun b => ! b) = true :: l := by
  induction c with
  | zero => simp [List.dropWhile]
  | succ c ih =>
    rw [List.replicate_succ, List.cons_append, List.dropWhile_cons]
    simpa using ih

theorem takeWhile_replicate_false_append (c : Nat) (l : List Bool) :
    (List.replicate c false ++ true :: l).takeWhile (fun b => ! b) =
      List.replicate c false := by
  induction c with
  | zero => simp [List.takeWhile]
  | succ c ih =>
    rw [List.replicate_succ, List.cons_append, List.takeWhile_cons]
    simpa using ih

theorem failRuns_replicate_false (c : Nat) :
    failRuns (List.replicate c false) = [] := by
  cases c with
  | zero =>
    rw [List.replicate, failRuns]
  | succ c =>
    rw [List.replicate_succ, failRuns]
    have hd : (List.replicate c (false : Bool)).dropWhile (fun b => ! b) = [] := by
      induction c with
      | zero => rfl
      | succ c ih =>
        rw [List.replicate_succ, List.dropWhile_cons]
        simpa using ih
    rw [hd]

theorem failRuns_replicate_false_append (c : Nat) (l : List Bool) :
    failRuns (List.replicate c false ++ true :: l) =
      (if c ≠ 0 then [c] else []) ++ failRuns l := by
  cases c with
  | zero =>
    rw [List.replicate, List.nil_append, failRuns]
    simp
  | succ c =>
    rw [List.replicate_succ, List.cons_append, failRuns]
    rw [dropWhile_replicate_false_append, takeWhile_replicate_false_append]
    simp [List.length_replicate]

theorem mergeLoop_snd {ρ : Type} (ps : List (ZipPair ρ)) :
    ∀ c, (mergeLoop c ps).2 =
      failRuns (List.replicate c false ++ ps.map fun q => q.okL && q.okR) := by
  induction ps with
  | nil =>
    intro c
    rw [List.map_nil, List.append_nil]
    exact (failRuns_replicate_false c).symm
  | cons p rest ih =>
    intro c
    rw [mergeLoop, List.map_cons]
    by_cases hok : p.okL && p.okR
    · rw [if_pos hok, hok]
      rw [failRuns_replicate_false_append]
      simp only
      rw [ih 0]
      rw [List.replicate, List.nil_append]
    · rw [if_neg hok]
      rw [ih (c + 1)]
      have hfalse : (p.okL && p.okR) = false := by
        simpa using hok
      rw [hfalse]
      rw [List.replicate_succ', List.append_assoc]
      rfl

/-- C8: in the record-stream merge loop, a pair failing either id-containment
check is skipped (the emitted records are exactly the merges of the passing
pairs, in order) with the running counter incremented and processing
continuing; the reported counts are exactly the lengths of the maximal runs
of failing pairs that are interrupted by a subsequent success, at which point
the counter is reset to zero. -/
theorem C8_merge_loop_skip_and_report {ρ : Type} (ps rest : List (ZipPair ρ))
    (p : ZipPair ρ) (c : Nat) :
    (mergeLoop 0 ps).1 =
        (ps.filter fun q => q.okL && q.okR).map (fun q => (q.recL, q.recR)) ∧
      (mergeLoop 0 ps).2 = failRuns (ps.map fun q => q.okL && q.okR) ∧
      ((p.okL && p.okR) = false → mergeLoop c (p :: rest) = mergeLoop (c + 1) rest) ∧
      ((p.okL && p.okR) = true →
        mergeLoop c (p :: rest) =
          ((p.recL, p.recR) :: (mergeLoop 0 rest).1,
            (if c ≠ 0 then [c] else []) ++ (mergeLoop 0 rest).2)) := by
  refine ⟨mergeLoop_fst ps 0, ?_, ?_, ?_⟩
  · rw [mergeLoop_snd ps 0, List.replicate, List.nil_append]
  · intro hfail
    rw [mergeLoop, if_neg (by simp [hfail])]
  · intro hok
    rw [mergeLoop, if_pos hok]

/-- Witness for the merge-loop behaviour on concrete pair streams: one run
with a failing then a succeeding pair, plus the two step equations at
concrete failing and succeeding heads with counter 2. -/
theorem C8_merge_loop_skip_and_report_witness :
    (mergeLoop 0 [⟨true, false, (1 : Nat), 2⟩, ⟨true, true, 3, 4⟩]).1 =
        (([⟨true, false, (1 : Nat), 2⟩, ⟨true, true, 3, 4⟩] :
            List (ZipPair Nat)).filter fun q => q.okL && q.okR).map
          (fun q => (q.recL, q.recR)) ∧
      (mergeLoop 0 [⟨true, false, (1 : Nat), 2⟩, ⟨true, true, 3, 4⟩]).2 =
        failRuns (([⟨true, false, (1 : Nat), 2⟩, ⟨true, true, 3, 4⟩] :
          List (ZipPair Nat)).map fun q => q.okL && q.okR) ∧
      mergeLoop 2 (⟨false, true, (5 : Nat), 6⟩ :: [⟨true, true, 7, 8⟩]) =
        mergeLoop 3 [⟨true, true, 7, 8⟩] ∧
      mergeLoop 2 (⟨true, true, (5 : Nat), 6⟩ :: [⟨true, true, 7, 8⟩]) =
        ((5, 6) :: (mergeLoop 0 [⟨true, true, (7 : Nat), 8⟩]).1,
          (if 2 ≠ 0 then [2] else []) ++ (mergeLoop 0 [⟨true, true, (7 : Nat), 8⟩]).2) := by
  refine ⟨?_, ?_, ?_, ?_⟩
  · exact (C8_merge_loop_skip_and_report
      [⟨true, false, 1, 2⟩, ⟨true, true, 3, 4⟩] [] ⟨true, true, 0, 0⟩ 0).1
  · exact (C8_merge_loop_skip_and_report
      [⟨true, false, 1, 2⟩, ⟨true, true, 3, 4⟩] [] ⟨true, true, 0, 0⟩ 0).2.1
  · exact (C8_merge_loop_skip_and_report [] [⟨true, true, 7, 8⟩]
      ⟨false, true, 5, 6⟩ 2).2.2.1 (by decide)
  · exact (C8_merge_loop_skip_and_report [] [⟨true, true, 7, 8⟩]
      ⟨true, true, 5, 6⟩ 2).2.2.2 (by decide)

theorem foldl_append_eq_filterMap {σ ρ : Type} (f : σ → Option (List ρ))
    (files : List σ) :
    ∀ acc : List (List ρ),
      files.foldl
          (fun acc x =>
            match f x with
            | some c => acc ++ [c]
            | none => acc) acc =
        acc ++ ((files.map f).filter fun c => c.isSome).filterMap id := by
  induction files with
  | nil =>
    intro acc
    simp
  | cons x files ih =>
    intro acc
    rw [List.foldl_cons, List.map_cons, List.filter_cons]
    cases hfx : f x with
    | none =>
      simp only [hfx, Option.isSome_none]
      rw [if_neg (by simp)]
      exact ih acc
    | some c =>
      simp only [hfx, Option.isSome_some]
      rw [if_pos trivial, List.filterMap_cons]
      simp only [id]
      rw [ih (acc ++ [c]), List.append_assoc]
      rfl

/-- C10: `get_catalog` with `num_proc > 1` returns the same catalogue, rows
in the same order, as `get_catalog` with `num_proc = 1`: both branches apply
the per-file reader to the split's files in list order, drop the files that
returned None, and vertically stack the survivors. -/
theorem C10_get_catalog_num_proc {σ ρ : Type} (f : σ → Option (List ρ))
    (files : List σ) (numProc : Nat) (h : 1 < numProc) :
    get_catalog f files numProc = get_catalog f files 1 := by
  unfold get_catalog
  rw [if_pos h, if_neg (by omega)]
  unfold get_catalog_par get_catalog_seq
  rw [foldl_append_eq_filterMap f files []]
  rw [List.nil_append]

/-- Witness for the `num_proc` equivalence on a concrete reader (the middle
file fails) and three files. -/
theorem C10_get_catalog_num_proc_witness :
    get_catalog (fun n : Nat => if n = 1 then none else some [n, n + 1])
        [0, 1, 2] 2 =
      get_catalog (fun n : Nat => if n = 1 then none else some [n, n + 1])
        [0, 1, 2] 1 :=
  C10_get_catalog_num_proc (fun n : Nat => if n = 1 then none else some [n, n + 1])
    [0, 1, 2] 2 (by decide)

end MMU
